import Mathlib

/-!
Verification of the squarified treemap layout engine of `src/utils/layout.js`
(`calculateLayout` and its inner recursive `layoutSquarified`).

All JavaScript floating-point arithmetic is modelled by exact rational
arithmetic (`ℚ`).  Items carry opaque caller metadata, modelled by a type
parameter `α`; the numeric `size` field is the layout weight.

Note on the source: `calculateLayout` defines two layout mechanisms.  The
closures `squarify` / `worst` / `layoutRow` (lines 22–100) are dead code for
the returned value: line 211 (`layouts.length = 0`) clears the accumulator
and line 212 recomputes it with `layoutSquarified` (lines 109–193), whose
result is returned.  Only that active path is embedded here.
-/

set_option maxHeartbeats 1000000

namespace Treemap

/-- A `WeightedItem`: opaque metadata (including the identifier) plus the
numeric weight `size`. -/
structure Item (α : Type) where
  data : α
  size : ℚ
deriving DecidableEq, Repr

/-- An item after normalization (lines 12–17 of `layout.js`): the original
fields plus `normalizedSize = (size / totalSize) * (width * height)`. -/
structure NItem (α : Type) where
  data : α
  size : ℚ
  normalizedSize : ℚ
deriving DecidableEq, Repr

/-- A placed rectangle, as pushed onto `layouts`: the spread of the
(normalized) item's fields together with the computed `x, y, width, height`. -/
structure Rect (α : Type) where
  data : α
  size : ℚ
  normalizedSize : ℚ
  x : ℚ
  y : ℚ
  width : ℚ
  height : ℚ
deriving DecidableEq, Repr

/-- Projection of a placed rectangle back to the normalized item it came from. -/
def toNItem (r : Rect α) : NItem α :=
  { data := r.data, size := r.size, normalizedSize := r.normalizedSize }

/-- The function `worstRatio(row, area, side)` of `layout.js` lines 195–208.
The source returns `Infinity` on an empty row; both call sites (lines 144–145)
only pass non-empty rows, and on them the `forEach` loop is the fold below. -/
def worstRatio (row : List (NItem α)) (area side : ℚ) : ℚ :=
  let length := area / side
  row.foldl
    (fun worst item =>
      let itemSide := item.normalizedSize / length
      max worst (max (length / itemSide) (itemSide / length)))
    0

/-- The greedy row-building `while` loop of `layoutSquarified`
(`layout.js` lines 128–154): starting from `row` (with accumulated area
`rowArea`), keep appending the next child while that does not worsen the
worst aspect ratio.  Returns the finalized row, its area, and the remaining
(unconsumed) children. -/
def buildRowS (side : ℚ) :
    List (NItem α) → List (NItem α) → ℚ → List (NItem α) × ℚ × List (NItem α)
  | [], row, rowArea => (row, rowArea, [])
  | item :: rest, row, rowArea =>
    let testRow := row ++ [item]
    let testArea := rowArea + item.normalizedSize
    if row.isEmpty then
      buildRowS side rest testRow testArea
    else if worstRatio testRow testArea side ≤ worstRatio row rowArea side then
      buildRowS side rest testRow testArea
    else
      (row, rowArea, item :: rest)

/-- The row-emission `forEach` loop of `layoutSquarified`
(`layout.js` lines 158–182): lay the finalized row's items along the row,
each spanning `rowLength` across the row and `normalizedSize / rowLength`
along it, with the padding inset applied on emission. -/
def layoutRowS (padding : ℚ) (vertical : Bool) (x y rowLength : ℚ) :
    List (NItem α) → ℚ → List (Rect α)
  | [], _ => []
  | item :: rest, offset =>
    let itemSize := item.normalizedSize / rowLength
    (if vertical then
      { data := item.data, size := item.size, normalizedSize := item.normalizedSize
        x := x + padding / 2, y := y + offset + padding / 2
        width := max (rowLength - padding) 0, height := max (itemSize - padding) 0 }
    else
      { data := item.data, size := item.size, normalizedSize := item.normalizedSize
        x := x + offset + padding / 2, y := y + padding / 2
        width := max (itemSize - padding) 0, height := max (rowLength - padding) 0 }
      : Rect α) :: layoutRowS padding vertical x y rowLength rest (offset + itemSize)

/-- Fuel-indexed form of the recursive partition
`layoutSquarified(items, x, y, width, height)` (`layout.js` lines 109–193).
One item receives the whole rectangle; otherwise the split direction is chosen
by `width >= height`, a row is built greedily, laid out, and the remaining
items are laid out in the leftover rectangle.  The fuel only bounds the
recursion depth: by `buildRowS_remaining_lt` every recursive call strictly
shrinks the item list, so `items.length` units of fuel always suffice
(`layoutSquarifiedF_fuel` below), which is exactly the termination argument
of the source recursion. -/
def layoutSquarifiedF (padding : ℚ) (fuel : Nat) (items : List (NItem α))
    (x y width height : ℚ) : List (Rect α) :=
  match items with
  | [] => []
  | [item] =>
    [{ data := item.data, size := item.size, normalizedSize := item.normalizedSize
       x := x + padding / 2, y := y + padding / 2
       width := max (width - padding) 0, height := max (height - padding) 0 }]
  | i0 :: i1 :: rest =>
    match fuel with
    | 0 => []
    | f + 1 =>
      let vertical : Bool := decide (width ≥ height)
      let side := if vertical then height else width
      let br := buildRowS side (i0 :: i1 :: rest) [] 0
      let rowLength := br.2.1 / side
      layoutRowS padding vertical x y rowLength br.1 0 ++
        (if 0 < br.2.2.length then
          (if vertical then
            layoutSquarifiedF padding f br.2.2 (x + rowLength) y (width - rowLength) height
          else
            layoutSquarifiedF padding f br.2.2 x (y + rowLength) width (height - rowLength))
        else [])

/-- The recursive partition `layoutSquarified` of `layout.js`: the fuel-indexed
form run with enough fuel for its own item count. -/
def layoutSquarified (padding : ℚ) (items : List (NItem α)) (x y width height : ℚ) :
    List (Rect α) :=
  layoutSquarifiedF padding items.length items x y width height

/-- The reduction `totalSize = items.reduce((sum, item) => sum + item.size, 0)`
(line 7 of `layout.js`). -/
def totalSizeOf (items : List (Item α)) : ℚ :=
  items.foldl (fun sum item => sum + item.size) 0

/-- Normalization and descending stable sort (`layout.js` lines 10–17):
each item receives `normalizedSize = (size / totalSize) * (width * height)`
and the list is sorted descending by `normalizedSize` (JavaScript's stable
sort with comparator `(a, b) => b.normalizedSize - a.normalizedSize`). -/
def normalizedItems (items : List (Item α)) (containerWidth containerHeight : ℚ) :
    List (NItem α) :=
  (items.map fun item =>
      ({ data := item.data, size := item.size
         normalizedSize := item.size / totalSizeOf items * (containerWidth * containerHeight) }
        : NItem α)).mergeSort
    fun a b => decide (b.normalizedSize ≤ a.normalizedSize)

/-- The exported `calculateLayout(items, containerWidth, containerHeight, padding)`
(`layout.js` lines 4–215, active path): guard the degenerate inputs, normalize
and sort, then run the recursive subdivision on the full container. -/
def calculateLayout (items : List (Item α)) (containerWidth containerHeight padding : ℚ) :
    List (Rect α) :=
  if items.isEmpty then []
  else if totalSizeOf items = 0 then []
  else layoutSquarified padding (normalizedItems items containerWidth containerHeight)
    0 0 containerWidth containerHeight

/-- Positive-area intersection of two placed rectangles (each read as the
closed axis-aligned box `[x, x + width] × [y, y + height]`). -/
def overlaps (r1 r2 : Rect α) : Prop :=
  max r1.x r2.x < min (r1.x + r1.width) (r2.x + r2.width) ∧
  max r1.y r2.y < min (r1.y + r1.height) (r2.y + r2.height)

instance (r1 r2 : Rect α) : Decidable (overlaps r1 r2) := by
  unfold overlaps; infer_instance

/-- Shrink a rectangle by the symmetric padding inset, as the emission sites
of `layout.js` do (`x + padding/2`, `max (width - padding) 0`, …). -/
def shrink (p : ℚ) (r : Rect α) : Rect α :=
  { r with
    x := r.x + p / 2, y := r.y + p / 2
    width := max (r.width - p) 0, height := max (r.height - p) 0 }

/-- Helper for the termination argument: `buildRowS` never returns more
remaining children than it was given. -/
theorem buildRowS_remaining_le (side : ℚ) :
    ∀ (children row : List (NItem α)) (a : ℚ),
      (buildRowS side children row a).2.2.length ≤ children.length := by
  intro children
  induction children with
  | nil => intro row a; simp [buildRowS]
  | cons c cs ih =>
    intro row a
    by_cases h : row.isEmpty
    · simpa [buildRowS, h] using Nat.le_succ_of_le (ih _ _)
    · by_cases h2 : worstRatio (row ++ [c]) (a + c.normalizedSize) side ≤ worstRatio row a side
      · simpa [buildRowS, h, h2] using Nat.le_succ_of_le (ih _ _)
      · simp [buildRowS, h, h2]

/-- Helper for the termination argument: starting from an empty row, the
first child is always consumed, so strictly fewer children remain. -/
theorem buildRowS_remaining_lt (side : ℚ) (c : NItem α) (cs : List (NItem α)) (a : ℚ) :
    (buildRowS side (c :: cs) [] a).2.2.length < (c :: cs).length := by
  have h : buildRowS side (c :: cs) [] a
      = buildRowS side cs ([] ++ [c]) (a + c.normalizedSize) := by
    simp [buildRowS]
  rw [h]
  exact Nat.lt_succ_of_le (buildRowS_remaining_le side cs _ _)


/-! ### Basic lemmas about the embedded definitions -/

theorem foldl_add_map {β : Type} (f : β → ℚ) :
    ∀ (l : List β) (a : ℚ), l.foldl (fun s i => s + f i) a = a + (l.map f).sum := by
  intro l
  induction l with
  | nil => intro a; simp
  | cons b bs ih => intro a; simp [ih]; ring

theorem totalSizeOf_eq_sum (items : List (Item α)) :
    totalSizeOf items = (items.map Item.size).sum := by
  simpa using foldl_add_map Item.size items 0

/-- One-step unfolding of `layoutSquarifiedF` on a list of two or more items,
stated with the intermediate values of the source body made explicit. -/
theorem layoutSquarifiedF_cons_cons (p : ℚ) (f : Nat) (i0 i1 : NItem α)
    (rest : List (NItem α)) (x y w h : ℚ)
    (vertical : Bool) (hv : vertical = decide (w ≥ h))
    (side : ℚ) (hs : side = if vertical then h else w)
    (br : List (NItem α) × ℚ × List (NItem α))
    (hbr : br = buildRowS side (i0 :: i1 :: rest) [] 0)
    (rowLength : ℚ) (hrl : rowLength = br.2.1 / side) :
    layoutSquarifiedF p (f + 1) (i0 :: i1 :: rest) x y w h =
      layoutRowS p vertical x y rowLength br.1 0 ++
        (if 0 < br.2.2.length then
          (if vertical then
            layoutSquarifiedF p f br.2.2 (x + rowLength) y (w - rowLength) h
          else
            layoutSquarifiedF p f br.2.2 x (y + rowLength) w (h - rowLength))
        else []) := by
  subst hv hs hbr hrl
  rfl

/-- Any amount of fuel at least the item count computes the same layout:
the recursion consumes at least one item per level
(`buildRowS_remaining_lt`), so its depth is bounded by the item count. -/
theorem layoutSquarifiedF_fuel (p : ℚ) :
    ∀ (f g : Nat) (items : List (NItem α)) (x y w h : ℚ),
      items.length ≤ f → items.length ≤ g →
      layoutSquarifiedF p f items x y w h = layoutSquarifiedF p g items x y w h := by
  intro f
  induction f with
  | zero =>
    intro g items x y w h hf _
    have : items = [] := List.length_eq_zero.mp (Nat.le_zero.mp hf)
    subst this
    cases g <;> rfl
  | succ f ih =>
    intro g items x y w h hf hg
    match items, g with
    | [], g => cases g <;> rfl
    | [i], g => cases g <;> rfl
    | i0 :: i1 :: rest, 0 => exact absurd hg (by simp)
    | i0 :: i1 :: rest, g + 1 =>
      cases hd : (decide (w ≥ h) : Bool) with
      | false =>
        have hlt := buildRowS_remaining_lt w i0 (i1 :: rest) 0
        have hlf := Nat.lt_succ_iff.mp (Nat.lt_of_lt_of_le hlt hf)
        have hlg := Nat.lt_succ_iff.mp (Nat.lt_of_lt_of_le hlt hg)
        rw [layoutSquarifiedF_cons_cons p f i0 i1 rest x y w h false hd.symm w rfl _ rfl _ rfl,
          layoutSquarifiedF_cons_cons p g i0 i1 rest x y w h false hd.symm w rfl _ rfl _ rfl]
        congr 1
        split
        · rw [if_neg Bool.false_ne_true, if_neg Bool.false_ne_true]
          exact ih g _ _ _ _ _ hlf hlg
        · rfl
      | true =>
        have hlt := buildRowS_remaining_lt h i0 (i1 :: rest) 0
        have hlf := Nat.lt_succ_iff.mp (Nat.lt_of_lt_of_le hlt hf)
        have hlg := Nat.lt_succ_iff.mp (Nat.lt_of_lt_of_le hlt hg)
        rw [layoutSquarifiedF_cons_cons p f i0 i1 rest x y w h true hd.symm h rfl _ rfl _ rfl,
          layoutSquarifiedF_cons_cons p g i0 i1 rest x y w h true hd.symm h rfl _ rfl _ rfl]
        congr 1
        split
        · rw [if_pos rfl, if_pos rfl]
          exact ih g _ _ _ _ _ hlf hlg
        · rfl

/-- One-step unfolding of `layoutSquarifiedF` when the split is vertical
(`width >= height`, rows stacked left to right, `side = height`). -/
theorem layoutSquarifiedF_cc_vert (p : ℚ) (f : Nat) (i0 i1 : NItem α)
    (rest : List (NItem α)) (x y w h : ℚ) (hvert : h ≤ w) :
    layoutSquarifiedF p (f + 1) (i0 :: i1 :: rest) x y w h =
      layoutRowS p true x y ((buildRowS h (i0 :: i1 :: rest) [] 0).2.1 / h)
          (buildRowS h (i0 :: i1 :: rest) [] 0).1 0 ++
        (if 0 < (buildRowS h (i0 :: i1 :: rest) [] 0).2.2.length then
          layoutSquarifiedF p f (buildRowS h (i0 :: i1 :: rest) [] 0).2.2
            (x + (buildRowS h (i0 :: i1 :: rest) [] 0).2.1 / h) y
            (w - (buildRowS h (i0 :: i1 :: rest) [] 0).2.1 / h) h
        else []) := by
  have hb : (decide (w ≥ h) : Bool) = true := decide_eq_true hvert
  rw [layoutSquarifiedF_cons_cons p f i0 i1 rest x y w h true hb.symm h rfl _ rfl _ rfl]
  simp

/-- One-step unfolding of `layoutSquarifiedF` when the split is horizontal
(`width < height`, rows stacked top to bottom, `side = width`). -/
theorem layoutSquarifiedF_cc_horiz (p : ℚ) (f : Nat) (i0 i1 : NItem α)
    (rest : List (NItem α)) (x y w h : ℚ) (hvert : ¬ h ≤ w) :
    layoutSquarifiedF p (f + 1) (i0 :: i1 :: rest) x y w h =
      layoutRowS p false x y ((buildRowS w (i0 :: i1 :: rest) [] 0).2.1 / w)
          (buildRowS w (i0 :: i1 :: rest) [] 0).1 0 ++
        (if 0 < (buildRowS w (i0 :: i1 :: rest) [] 0).2.2.length then
          layoutSquarifiedF p f (buildRowS w (i0 :: i1 :: rest) [] 0).2.2
            x (y + (buildRowS w (i0 :: i1 :: rest) [] 0).2.1 / w) w
            (h - (buildRowS w (i0 :: i1 :: rest) [] 0).2.1 / w)
        else []) := by
  have hb : (decide (w ≥ h) : Bool) = false := decide_eq_false hvert
  rw [layoutSquarifiedF_cons_cons p f i0 i1 rest x y w h false hb.symm w rfl _ rfl _ rfl]
  simp

/-- The row built by `buildRowS` extends the row it started from. -/
theorem buildRowS_row_le (side : ℚ) :
    ∀ (children row : List (NItem α)) (a : ℚ),
      row.length ≤ (buildRowS side children row a).1.length := by
  intro children
  induction children with
  | nil => intro row a; simp [buildRowS]
  | cons c cs ih =>
    intro row a
    by_cases h : row.isEmpty
    · have := ih (row ++ [c]) (a + c.normalizedSize)
      simp only [buildRowS, h, if_true]
      simp at this
      omega
    · by_cases h2 : worstRatio (row ++ [c]) (a + c.normalizedSize) side ≤ worstRatio row a side
      · have := ih (row ++ [c]) (a + c.normalizedSize)
        simp only [buildRowS, h, if_false, h2, if_true, Bool.false_eq_true]
        simp at this
        omega
      · simp [buildRowS, h, h2]

/-! ### Claim theorems: degenerate inputs, single item, two equal items,
termination, non-negative dimensions -/

/-- C4: for every width, height and padding, `calculateLayout` returns an
empty list (and in particular does not fail) when the item list is empty or
the item sizes sum to zero; the particular instances
`calculateLayout [] 100 100 3 = []` and
`calculateLayout [{size: 0}] 100 100 3 = []` are in the witness. -/
theorem C4_degenerate_empty {α : Type} (items : List (Item α)) (W H p : ℚ)
    (h : items = [] ∨ (items.map Item.size).sum = 0) :
    calculateLayout items W H p = [] := by
  rcases h with h | h
  · subst h; rfl
  · by_cases hne : items.isEmpty
    · simp [calculateLayout, hne]
    · simp [calculateLayout, hne, totalSizeOf_eq_sum, h]

theorem C4_degenerate_empty_witness :
    calculateLayout ([] : List (Item Nat)) 100 100 3 = [] ∧
      calculateLayout [Item.mk (0 : Nat) 0] 100 100 3 = [] :=
  ⟨C4_degenerate_empty [] 100 100 3 (Or.inl rfl),
    C4_degenerate_empty [Item.mk (0 : Nat) 0] 100 100 3 (Or.inr (by simp))⟩

/-- C5: a single item with positive size in a positive container receives the
whole rectangle minus the padding inset: position `(padding/2, padding/2)`,
dimensions `max (width - padding) 0` and `max (height - padding) 0`. -/
theorem C5_single_item {α : Type} (i : Item α) (W H p : ℚ)
    (hs : 0 < i.size) (_hW : 0 < W) (_hH : 0 < H) :
    calculateLayout [i] W H p =
      [{ data := i.data, size := i.size, normalizedSize := W * H
         x := p / 2, y := p / 2
         width := max (W - p) 0, height := max (H - p) 0 }] := by
  have hts : totalSizeOf [i] = i.size := by simp [totalSizeOf]
  have hne : i.size ≠ 0 := ne_of_gt hs
  simp [calculateLayout, hts, hne, normalizedItems, layoutSquarified, layoutSquarifiedF,
    div_self hne]

theorem C5_single_item_witness :
    calculateLayout [Item.mk (0 : Nat) 5] 200 100 0 =
      [{ data := 0, size := 5, normalizedSize := 20000
         x := 0, y := 0, width := 200, height := 100 }] := by
  have h := C5_single_item (Item.mk (0 : Nat) 5) 200 100 0
    (by norm_num) (by norm_num) (by norm_num)
  norm_num [max_def] at h
  exact h

/-- C6: two items of equal weight in a 200 × 100 container with padding 0 are
laid out as two 100 × 100 squares (at x = 0 and x = 100), not as two 200 × 50
slices: the `width >= height` split rule yields the squarer option. -/
theorem C6_two_equal_items :
    calculateLayout [Item.mk (0 : Nat) 1, Item.mk 1 1] 200 100 0 =
      [{ data := 0, size := 1, normalizedSize := 10000
         x := 0, y := 0, width := 100, height := 100 },
       { data := 1, size := 1, normalizedSize := 10000
         x := 100, y := 0, width := 100, height := 100 }] := by
  norm_num [calculateLayout, totalSizeOf, normalizedItems, layoutSquarified,
    layoutSquarifiedF, buildRowS, worstRatio, layoutRowS, max_def,
    List.mergeSort_of_sorted]

/-- C7: the greedy row construction always consumes at least one item
(starting from an empty row), so every recursive call of `layoutSquarified`
receives a strictly smaller item list; consequently `items.length` levels of
fuel are always enough and the layout function is total: any fuel of at
least the item count yields the (fuel-free) `layoutSquarified`. -/
theorem C7_termination {α : Type} (side : ℚ) (items : List (NItem α)) (a : ℚ)
    (hne : items ≠ []) (f : Nat) (hf : items.length ≤ f) (p x y w h : ℚ) :
    1 ≤ (buildRowS side items [] a).1.length ∧
      (buildRowS side items [] a).2.2.length < items.length ∧
      layoutSquarifiedF p f items x y w h = layoutSquarified p items x y w h := by
  match items with
  | [] => exact absurd rfl hne
  | c :: cs =>
    refine ⟨?_, buildRowS_remaining_lt side c cs a, ?_⟩
    · have h1 : buildRowS side (c :: cs) [] a
          = buildRowS side cs ([] ++ [c]) (a + c.normalizedSize) := by
        simp [buildRowS]
      rw [h1]
      simpa using buildRowS_row_le side cs ([] ++ [c]) (a + c.normalizedSize)
    · exact layoutSquarifiedF_fuel p f (c :: cs).length (c :: cs) x y w h hf (le_refl _)

theorem C7_termination_witness :
    1 ≤ (buildRowS 1 [NItem.mk (0 : Nat) 1 1] [] 0).1.length ∧
      (buildRowS 1 [NItem.mk (0 : Nat) 1 1] [] 0).2.2.length
        < [NItem.mk (0 : Nat) 1 1].length ∧
      layoutSquarifiedF 2 3 [NItem.mk (0 : Nat) 1 1] 0 0 5 7 =
        layoutSquarified 2 [NItem.mk (0 : Nat) 1 1] 0 0 5 7 :=
  C7_termination 1 [NItem.mk (0 : Nat) 1 1] 0 (by decide) 3 (by decide) 2 0 0 5 7

/-- Every rectangle emitted by the row loop has non-negative dimensions. -/
theorem layoutRowS_mem_nonneg {α : Type} (p : ℚ) (v : Bool) (x y rl : ℚ) :
    ∀ (row : List (NItem α)) (off : ℚ) (r : Rect α),
      r ∈ layoutRowS p v x y rl row off → 0 ≤ r.width ∧ 0 ≤ r.height := by
  intro row
  induction row with
  | nil => intro off r hr; simp [layoutRowS] at hr
  | cons i rest ih =>
    intro off r hr
    rw [layoutRowS] at hr
    rcases List.mem_cons.mp hr with h | h
    · subst h
      cases v <;> simp
    · exact ih _ _ h

/-- Every rectangle emitted by the recursive partition has non-negative
dimensions. -/
theorem layoutSquarifiedF_mem_nonneg {α : Type} (p : ℚ) :
    ∀ (f : Nat) (items : List (NItem α)) (x y w h : ℚ) (r : Rect α),
      r ∈ layoutSquarifiedF p f items x y w h → 0 ≤ r.width ∧ 0 ≤ r.height := by
  intro f
  induction f with
  | zero =>
    intro items x y w h r hr
    match items with
    | [] => simp [layoutSquarifiedF] at hr
    | [i] =>
      simp only [layoutSquarifiedF, List.mem_singleton] at hr
      subst hr
      exact ⟨le_max_right _ 0, le_max_right _ 0⟩
    | i0 :: i1 :: rest => simp [layoutSquarifiedF] at hr
  | succ f ih =>
    intro items x y w h r hr
    match items with
    | [] => simp [layoutSquarifiedF] at hr
    | [i] =>
      simp only [layoutSquarifiedF, List.mem_singleton] at hr
      subst hr
      exact ⟨le_max_right _ 0, le_max_right _ 0⟩
    | i0 :: i1 :: rest =>
      by_cases hvert : h ≤ w
      · rw [layoutSquarifiedF_cc_vert p f i0 i1 rest x y w h hvert] at hr
        rcases List.mem_append.mp hr with h1 | h1
        · exact layoutRowS_mem_nonneg p true x y _ _ _ r h1
        · split at h1
          · exact ih _ _ _ _ _ r h1
          · simp at h1
      · rw [layoutSquarifiedF_cc_horiz p f i0 i1 rest x y w h hvert] at hr
        rcases List.mem_append.mp hr with h1 | h1
        · exact layoutRowS_mem_nonneg p false x y _ _ _ r h1
        · split at h1
          · exact ih _ _ _ _ _ r h1
          · simp at h1

/-- C8: every rectangle returned by `calculateLayout` has non-negative width
and height, for every input whatsoever (clamping by `max (_ - padding) 0`). -/
theorem C8_nonneg_dims {α : Type} (items : List (Item α)) (W H p : ℚ)
    (r : Rect α) (hr : r ∈ calculateLayout items W H p) :
    0 ≤ r.width ∧ 0 ≤ r.height := by
  unfold calculateLayout at hr
  split at hr
  · simp at hr
  · split at hr
    · simp at hr
    · exact layoutSquarifiedF_mem_nonneg p _ _ _ _ _ _ r hr

theorem C8_nonneg_dims_witness :
    0 ≤ ({ data := 0, size := 5, normalizedSize := 20000
           x := 3/2, y := 3/2, width := 197, height := 97 } : Rect Nat).width ∧
      0 ≤ ({ data := 0, size := 5, normalizedSize := 20000
             x := 3/2, y := 3/2, width := 197, height := 97 } : Rect Nat).height :=
  C8_nonneg_dims [Item.mk (0 : Nat) 5] 200 100 3 _ (by
    norm_num [calculateLayout, totalSizeOf, normalizedItems, layoutSquarified,
      layoutSquarifiedF, max_def])

/-! ### Relating a padded run to the padding-zero run

The padding only affects the emission of rectangles (`layoutRowS` and the
single-item case), never the control flow (`buildRowS`, split direction,
row length, recursion coordinates).  A run with padding `p ≥ 0` is therefore
the padding-zero run with every rectangle shrunk in place. -/

theorem max_shift {p : ℚ} (hp : 0 ≤ p) (a : ℚ) :
    max (max a 0 - p) 0 = max (a - p) 0 := by
  rcases le_total a 0 with h | h
  · rw [max_eq_right h, zero_sub, max_eq_right (by linarith), max_eq_right (by linarith)]
  · rw [max_eq_left h]

theorem layoutRowS_pad {p : ℚ} (hp : 0 ≤ p) (v : Bool) (x y rl : ℚ) :
    ∀ (row : List (NItem α)) (off : ℚ),
      layoutRowS p v x y rl row off = (layoutRowS 0 v x y rl row off).map (shrink p) := by
  intro row
  induction row with
  | nil => intro off; simp [layoutRowS]
  | cons i rest ih =>
    intro off
    cases v <;>
      simp [layoutRowS, shrink, ih, max_shift hp, Rect.mk.injEq]

theorem layoutSquarifiedF_pad {p : ℚ} (hp : 0 ≤ p) :
    ∀ (f : Nat) (items : List (NItem α)) (x y w h : ℚ),
      layoutSquarifiedF p f items x y w h
        = (layoutSquarifiedF 0 f items x y w h).map (shrink p) := by
  intro f
  induction f with
  | zero =>
    intro items x y w h
    match items with
    | [] => simp [layoutSquarifiedF]
    | [i] => simp [layoutSquarifiedF, shrink, max_shift hp, Rect.mk.injEq]
    | i0 :: i1 :: rest => simp [layoutSquarifiedF]
  | succ f ih =>
    intro items x y w h
    match items with
    | [] => simp [layoutSquarifiedF]
    | [i] => simp [layoutSquarifiedF, shrink, max_shift hp, Rect.mk.injEq]
    | i0 :: i1 :: rest =>
      by_cases hvert : h ≤ w
      · rw [layoutSquarifiedF_cc_vert p f i0 i1 rest x y w h hvert,
          layoutSquarifiedF_cc_vert 0 f i0 i1 rest x y w h hvert,
          List.map_append, layoutRowS_pad hp]
        congr 1
        split
        · exact ih _ _ _ _ _
        · simp
      · rw [layoutSquarifiedF_cc_horiz p f i0 i1 rest x y w h hvert,
          layoutSquarifiedF_cc_horiz 0 f i0 i1 rest x y w h hvert,
          List.map_append, layoutRowS_pad hp]
        congr 1
        split
        · exact ih _ _ _ _ _
        · simp

/-! ### Item preservation: the emitted rectangles are exactly the processed
items, in processing order -/

theorem layoutRowS_toNItem (p : ℚ) (v : Bool) (x y rl : ℚ) :
    ∀ (row : List (NItem α)) (off : ℚ),
      (layoutRowS p v x y rl row off).map toNItem = row := by
  intro row
  induction row with
  | nil => intro off; simp [layoutRowS]
  | cons i rest ih =>
    intro off
    cases v <;> simp [layoutRowS, toNItem, ih]

/-- The finalized row, its accumulated area, and the remaining children:
`buildRowS` splits its input into a consumed prefix (appended to the starting
row) and the untouched suffix, and adds exactly the consumed prefix's
normalized sizes to the starting area. -/
theorem buildRowS_split (side : ℚ) :
    ∀ (children row : List (NItem α)) (a : ℚ),
      ∃ mid,
        (buildRowS side children row a).1 = row ++ mid ∧
        children = mid ++ (buildRowS side children row a).2.2 ∧
        (buildRowS side children row a).2.1
          = a + (mid.map NItem.normalizedSize).sum := by
  intro children
  induction children with
  | nil => intro row a; exact ⟨[], by simp [buildRowS]⟩
  | cons c cs ih =>
    intro row a
    by_cases h : row.isEmpty
    · obtain ⟨mid, h1, h2, h3⟩ := ih (row ++ [c]) (a + c.normalizedSize)
      refine ⟨c :: mid, ?_, ?_, ?_⟩
      · simp only [buildRowS, h, if_true]
        rw [h1]
        simp
      · simp only [buildRowS, h, if_true]
        conv_lhs => rw [h2]
        simp
      · simp only [buildRowS, h, if_true]
        rw [h3]
        simp
        ring
    · by_cases h2c : worstRatio (row ++ [c]) (a + c.normalizedSize) side
          ≤ worstRatio row a side
      · obtain ⟨mid, h1, h2, h3⟩ := ih (row ++ [c]) (a + c.normalizedSize)
        refine ⟨c :: mid, ?_, ?_, ?_⟩
        · simp only [buildRowS, h, if_false, h2c, if_true, Bool.false_eq_true]
          rw [h1]
          simp
        · simp only [buildRowS, h, if_false, h2c, if_true, Bool.false_eq_true]
          conv_lhs => rw [h2]
          simp
        · simp only [buildRowS, h, if_false, h2c, if_true, Bool.false_eq_true]
          rw [h3]
          simp
          ring
      · exact ⟨[], by simp [buildRowS, h, h2c]⟩

/-- Starting from an empty row, the finalized row is non-empty. -/
theorem buildRowS_row_pos (side : ℚ) (c : NItem α) (cs : List (NItem α)) (a : ℚ) :
    0 < (buildRowS side (c :: cs) [] a).1.length := by
  have h1 : buildRowS side (c :: cs) [] a
      = buildRowS side cs ([] ++ [c]) (a + c.normalizedSize) := by
    simp [buildRowS]
  rw [h1]
  have := buildRowS_row_le side cs ([] ++ [c]) (a + c.normalizedSize)
  simp only [List.nil_append, List.length_singleton] at this ⊢
  omega

/-- Every rectangle list produced by the partition projects back to exactly
the item list it was given (same items, same order). -/
theorem layoutSquarifiedF_toNItem (p : ℚ) :
    ∀ (f : Nat) (items : List (NItem α)) (x y w h : ℚ),
      items.length ≤ f →
      (layoutSquarifiedF p f items x y w h).map toNItem = items := by
  intro f
  induction f with
  | zero =>
    intro items x y w h hf
    have : items = [] := List.length_eq_zero.mp (Nat.le_zero.mp hf)
    subst this
    simp [layoutSquarifiedF]
  | succ f ih =>
    intro items x y w h hf
    match items with
    | [] => simp [layoutSquarifiedF]
    | [i] => simp [layoutSquarifiedF, toNItem]
    | i0 :: i1 :: rest =>
      have hsplit := buildRowS_split (α := α)
      by_cases hvert : h ≤ w
      · rw [layoutSquarifiedF_cc_vert p f i0 i1 rest x y w h hvert, List.map_append,
          layoutRowS_toNItem]
        obtain ⟨mid, h1, h2, _⟩ := hsplit h (i0 :: i1 :: rest) [] 0
        have hlt := buildRowS_remaining_lt h i0 (i1 :: rest) 0
        split
        · rw [ih _ _ _ _ _ (Nat.lt_succ_iff.mp (Nat.lt_of_lt_of_le hlt hf))]
          rw [h1]
          simpa using h2.symm
        · rename_i hrem
          have hrem0 : (buildRowS h (i0 :: i1 :: rest) [] 0).2.2 = [] :=
            List.length_eq_zero.mp (Nat.eq_zero_of_not_pos hrem)
          simp only [List.map_nil, List.append_nil]
          rw [h1]
          simp only [List.nil_append]
          rw [hrem0, List.append_nil] at h2
          exact h2.symm
      · rw [layoutSquarifiedF_cc_horiz p f i0 i1 rest x y w h hvert, List.map_append,
          layoutRowS_toNItem]
        obtain ⟨mid, h1, h2, _⟩ := hsplit w (i0 :: i1 :: rest) [] 0
        have hlt := buildRowS_remaining_lt w i0 (i1 :: rest) 0
        split
        · rw [ih _ _ _ _ _ (Nat.lt_succ_iff.mp (Nat.lt_of_lt_of_le hlt hf))]
          rw [h1]
          simpa using h2.symm
        · rename_i hrem
          have hrem0 : (buildRowS w (i0 :: i1 :: rest) [] 0).2.2 = [] :=
            List.length_eq_zero.mp (Nat.eq_zero_of_not_pos hrem)
          simp only [List.map_nil, List.append_nil]
          rw [h1]
          simp only [List.nil_append]
          rw [hrem0, List.append_nil] at h2
          exact h2.symm

/-! ### Geometry of a laid-out row (padding zero) -/

/-- Two rectangles stacked left-to-right (the first ending before the second
begins) cannot intersect with positive area. -/
theorem stack_nonoverlap_x (r1 r2 : Rect α) (hle : r1.x + r1.width ≤ r2.x) :
    ¬ overlaps r1 r2 := by
  rintro ⟨hx, -⟩
  have h1 : min (r1.x + r1.width) (r2.x + r2.width) ≤ r1.x + r1.width := min_le_left _ _
  have h2 : r2.x ≤ max r1.x r2.x := le_max_right _ _
  linarith

/-- Two rectangles stacked top-to-bottom cannot intersect with positive
area. -/
theorem stack_nonoverlap_y (r1 r2 : Rect α) (hle : r1.y + r1.height ≤ r2.y) :
    ¬ overlaps r1 r2 := by
  rintro ⟨-, hy⟩
  have h1 : min (r1.y + r1.height) (r2.y + r2.height) ≤ r1.y + r1.height := min_le_left _ _
  have h2 : r2.y ≤ max r1.y r2.y := le_max_right _ _
  linarith

/-- A vertical row (items stacked downwards at fixed `x`, each spanning the
full row length in `width`) laid out with padding 0: every rectangle keeps
the row's `x`-extent, has positive height, area equal to its normalized size,
and the rectangles tile the band from `y + off` of total extent
`(sum of normalized sizes) / rowLength`, in order. -/
theorem layoutRowS_zero_vert (x y rl : ℚ) (hrl : 0 < rl) :
    ∀ (row : List (NItem α)) (off : ℚ), (∀ i ∈ row, 0 < i.normalizedSize) →
      (∀ r ∈ layoutRowS 0 true x y rl row off,
        r.x = x ∧ r.width = rl ∧ 0 < r.height ∧
        r.width * r.height = r.normalizedSize ∧
        y + off ≤ r.y ∧
        r.y + r.height ≤ y + off + (row.map NItem.normalizedSize).sum / rl) ∧
      (layoutRowS 0 true x y rl row off).Pairwise
        (fun r1 r2 => r1.y + r1.height ≤ r2.y) := by
  intro row
  induction row with
  | nil =>
    intro off _
    exact ⟨by intro r hr; simp [layoutRowS] at hr, by simp [layoutRowS]⟩
  | cons i rest ih =>
    intro off hpos
    have hi : 0 < i.normalizedSize := hpos i (List.mem_cons_self _ _)
    have hs : 0 < i.normalizedSize / rl := div_pos hi hrl
    have hrest : ∀ j ∈ rest, 0 < j.normalizedSize :=
      fun j hj => hpos j (List.mem_cons_of_mem _ hj)
    obtain ⟨ihMem, ihPW⟩ := ih (off + i.normalizedSize / rl) hrest
    have hsum_nonneg : 0 ≤ (rest.map NItem.normalizedSize).sum := by
      refine List.sum_nonneg ?_
      intro a ha
      obtain ⟨j, hj, rfl⟩ := List.mem_map.mp ha
      exact (hrest j hj).le
    have hdiv : ((i :: rest).map NItem.normalizedSize).sum / rl
        = i.normalizedSize / rl + (rest.map NItem.normalizedSize).sum / rl := by
      rw [List.map_cons, List.sum_cons, add_div]
    constructor
    · intro r hr
      simp only [layoutRowS, if_true, List.mem_cons] at hr
      rcases hr with rfl | hr
      · refine ⟨by norm_num, ?_, ?_, ?_, ?_, ?_⟩
        · show max (rl - 0) 0 = rl
          rw [sub_zero, max_eq_left hrl.le]
        · show 0 < max (i.normalizedSize / rl - 0) 0
          rw [sub_zero, max_eq_left hs.le]
          exact hs
        · show max (rl - 0) 0 * max (i.normalizedSize / rl - 0) 0 = i.normalizedSize
          rw [sub_zero, sub_zero, max_eq_left hrl.le, max_eq_left hs.le]
          field_simp
        · show y + off ≤ y + off + 0 / 2
          norm_num
        · show y + off + 0 / 2 + max (i.normalizedSize / rl - 0) 0
            ≤ y + off + ((i :: rest).map NItem.normalizedSize).sum / rl
          rw [sub_zero, max_eq_left hs.le, hdiv]
          have := div_nonneg hsum_nonneg hrl.le
          linarith
      · obtain ⟨h1, h2, h3, h4, h5, h6⟩ := ihMem r hr
        refine ⟨h1, h2, h3, h4, by linarith, ?_⟩
        rw [hdiv]
        linarith
    · simp only [layoutRowS, if_true]
      refine List.Pairwise.cons ?_ ihPW
      intro r hr
      obtain ⟨-, -, -, -, h5, -⟩ := ihMem r hr
      show y + off + 0 / 2 + max (i.normalizedSize / rl - 0) 0 ≤ r.y
      rw [sub_zero, max_eq_left hs.le]
      linarith

/-- A horizontal row (items stacked rightwards at fixed `y`, each spanning the
full row length in `height`) laid out with padding 0: the mirror image of
`layoutRowS_zero_vert`. -/
theorem layoutRowS_zero_horiz (x y rl : ℚ) (hrl : 0 < rl) :
    ∀ (row : List (NItem α)) (off : ℚ), (∀ i ∈ row, 0 < i.normalizedSize) →
      (∀ r ∈ layoutRowS 0 false x y rl row off,
        r.y = y ∧ r.height = rl ∧ 0 < r.width ∧
        r.width * r.height = r.normalizedSize ∧
        x + off ≤ r.x ∧
        r.x + r.width ≤ x + off + (row.map NItem.normalizedSize).sum / rl) ∧
      (layoutRowS 0 false x y rl row off).Pairwise
        (fun r1 r2 => r1.x + r1.width ≤ r2.x) := by
  intro row
  induction row with
  | nil =>
    intro off _
    exact ⟨by intro r hr; simp [layoutRowS] at hr, by simp [layoutRowS]⟩
  | cons i rest ih =>
    intro off hpos
    have hi : 0 < i.normalizedSize := hpos i (List.mem_cons_self _ _)
    have hs : 0 < i.normalizedSize / rl := div_pos hi hrl
    have hrest : ∀ j ∈ rest, 0 < j.normalizedSize :=
      fun j hj => hpos j (List.mem_cons_of_mem _ hj)
    obtain ⟨ihMem, ihPW⟩ := ih (off + i.normalizedSize / rl) hrest
    have hsum_nonneg : 0 ≤ (rest.map NItem.normalizedSize).sum := by
      refine List.sum_nonneg ?_
      intro a ha
      obtain ⟨j, hj, rfl⟩ := List.mem_map.mp ha
      exact (hrest j hj).le
    have hdiv : ((i :: rest).map NItem.normalizedSize).sum / rl
        = i.normalizedSize / rl + (rest.map NItem.normalizedSize).sum / rl := by
      rw [List.map_cons, List.sum_cons, add_div]
    constructor
    · intro r hr
      simp only [layoutRowS, Bool.false_eq_true, if_false, List.mem_cons] at hr
      rcases hr with rfl | hr
      · refine ⟨by norm_num, ?_, ?_, ?_, ?_, ?_⟩
        · show max (rl - 0) 0 = rl
          rw [sub_zero, max_eq_left hrl.le]
        · show 0 < max (i.normalizedSize / rl - 0) 0
          rw [sub_zero, max_eq_left hs.le]
          exact hs
        · show max (i.normalizedSize / rl - 0) 0 * max (rl - 0) 0 = i.normalizedSize
          rw [sub_zero, sub_zero, max_eq_left hrl.le, max_eq_left hs.le]
          field_simp
        · show x + off ≤ x + off + 0 / 2
          norm_num
        · show x + off + 0 / 2 + max (i.normalizedSize / rl - 0) 0
            ≤ x + off + ((i :: rest).map NItem.normalizedSize).sum / rl
          rw [sub_zero, max_eq_left hs.le, hdiv]
          have := div_nonneg hsum_nonneg hrl.le
          linarith
      · obtain ⟨h1, h2, h3, h4, h5, h6⟩ := ihMem r hr
        refine ⟨h1, h2, h3, h4, by linarith, ?_⟩
        rw [hdiv]
        linarith
    · simp only [layoutRowS, Bool.false_eq_true, if_false]
      refine List.Pairwise.cons ?_ ihPW
      intro r hr
      obtain ⟨-, -, -, -, h5, -⟩ := ihMem r hr
      show x + off + 0 / 2 + max (i.normalizedSize / rl - 0) 0 ≤ r.x
      rw [sub_zero, max_eq_left hs.le]
      linarith

/-! ### Master invariant of the padding-zero run

Under the run invariant (positive normalized sizes summing exactly to the
area of the current rectangle, positive dimensions), every emitted rectangle
has positive dimensions, area equal to its normalized size, lies inside the
current rectangle, and no two emitted rectangles intersect with positive
area. -/

theorem layoutSquarifiedF_zero_main {α : Type} :
    ∀ (f : Nat) (items : List (NItem α)) (x y w h : ℚ),
      items.length ≤ f →
      (∀ i ∈ items, 0 < i.normalizedSize) →
      0 < w → 0 < h →
      (items.map NItem.normalizedSize).sum = w * h →
      (∀ r ∈ layoutSquarifiedF 0 f items x y w h,
        0 < r.width ∧ 0 < r.height ∧
        r.width * r.height = r.normalizedSize ∧
        x ≤ r.x ∧ r.x + r.width ≤ x + w ∧ y ≤ r.y ∧ r.y + r.height ≤ y + h) ∧
      (layoutSquarifiedF 0 f items x y w h).Pairwise (fun r1 r2 => ¬ overlaps r1 r2) := by
  intro f
  induction f with
  | zero =>
    intro items x y w h hf _ _ _ _
    have : items = [] := List.length_eq_zero.mp (Nat.le_zero.mp hf)
    subst this
    exact ⟨by intro r hr; simp [layoutSquarifiedF] at hr, by simp [layoutSquarifiedF]⟩
  | succ f ih =>
    intro items x y w h hf hpos hw hh hsum
    match items with
    | [] =>
      exact ⟨by intro r hr; simp [layoutSquarifiedF] at hr, by simp [layoutSquarifiedF]⟩
    | [i] =>
      have hns : i.normalizedSize = w * h := by simpa using hsum
      constructor
      · intro r hr
        simp only [layoutSquarifiedF, List.mem_singleton] at hr
        subst hr
        refine ⟨?_, ?_, ?_, ?_, ?_, ?_, ?_⟩
        · show 0 < max (w - 0) 0
          rw [sub_zero, max_eq_left hw.le]; exact hw
        · show 0 < max (h - 0) 0
          rw [sub_zero, max_eq_left hh.le]; exact hh
        · show max (w - 0) 0 * max (h - 0) 0 = i.normalizedSize
          rw [sub_zero, sub_zero, max_eq_left hw.le, max_eq_left hh.le, hns]
        · show x ≤ x + 0 / 2
          norm_num
        · show x + 0 / 2 + max (w - 0) 0 ≤ x + w
          rw [sub_zero, max_eq_left hw.le]; norm_num
        · show y ≤ y + 0 / 2
          norm_num
        · show y + 0 / 2 + max (h - 0) 0 ≤ y + h
          rw [sub_zero, max_eq_left hh.le]; norm_num
      · simp only [layoutSquarifiedF]
        exact List.pairwise_singleton _ _
    | i0 :: i1 :: rest =>
      by_cases hvert : h ≤ w
      · -- vertical split: side = h, the row occupies the band
        -- from x to x + rowLength, full height
        rcases hbr : buildRowS h (i0 :: i1 :: rest) [] 0 with ⟨row, rowArea, rem⟩
        have hgoal : layoutSquarifiedF 0 (f + 1) (i0 :: i1 :: rest) x y w h
            = layoutRowS 0 true x y (rowArea / h) row 0 ++
              (if 0 < rem.length then
                layoutSquarifiedF 0 f rem (x + rowArea / h) y (w - rowArea / h) h
              else []) := by
          rw [layoutSquarifiedF_cc_vert 0 f i0 i1 rest x y w h hvert, hbr]
        rw [hgoal]
        obtain ⟨mid, hrow, hitems, harea⟩ := buildRowS_split h (i0 :: i1 :: rest) [] 0
        rw [hbr] at hrow hitems harea
        simp only [List.nil_append, zero_add] at hrow harea
        subst hrow
        have hlt : rem.length < (i0 :: i1 :: rest).length := by
          have := buildRowS_remaining_lt h i0 (i1 :: rest) 0
          rw [hbr] at this
          exact this
        have hrowne : row ≠ [] := by
          have := buildRowS_row_pos h i0 (i1 :: rest) 0
          rw [hbr] at this
          intro hcon
          rw [hcon] at this
          simp at this
        have hrowpos : ∀ j ∈ row, 0 < j.normalizedSize := by
          intro j hj
          exact hpos j (by rw [hitems]; exact List.mem_append_left _ hj)
        have hrempos : ∀ j ∈ rem, 0 < j.normalizedSize := by
          intro j hj
          exact hpos j (by rw [hitems]; exact List.mem_append_right _ hj)
        have hsplitsum : (row.map NItem.normalizedSize).sum
            + (rem.map NItem.normalizedSize).sum = w * h := by
          rw [← List.sum_append, ← List.map_append, ← hitems]
          exact hsum
        have hrowsum : 0 < (row.map NItem.normalizedSize).sum := by
          refine List.sum_pos _ ?_ ?_
          · intro a ha
            obtain ⟨j, hj, rfl⟩ := List.mem_map.mp ha
            exact hrowpos j hj
          · intro hcon
            exact hrowne (List.map_eq_nil_iff.mp hcon)
        have hrl : 0 < rowArea / h := div_pos (harea ▸ hrowsum) hh
        have hExt : (row.map NItem.normalizedSize).sum / (rowArea / h) = h := by
          rw [harea, div_div_eq_mul_div, mul_comm, mul_div_assoc,
            div_self (ne_of_gt hrowsum), mul_one]
        obtain ⟨rowMem, rowPW⟩ :=
          layoutRowS_zero_vert x y (rowArea / h) hrl row 0 hrowpos
        simp only [add_zero, zero_add] at rowMem
        by_cases hremc : 0 < rem.length
        · -- a remainder is laid out to the right of the row band
          rw [if_pos hremc]
          have hremne : rem ≠ [] := by
            intro hcon
            rw [hcon] at hremc
            simp at hremc
          have hremsum : 0 < (rem.map NItem.normalizedSize).sum := by
            refine List.sum_pos _ ?_ ?_
            · intro a ha
              obtain ⟨j, hj, rfl⟩ := List.mem_map.mp ha
              exact hrempos j hj
            · intro hcon
              exact hremne (List.map_eq_nil_iff.mp hcon)
          have hwrl : w - rowArea / h = (rem.map NItem.normalizedSize).sum / h := by
            rw [harea]
            rw [eq_div_iff (ne_of_gt hh), sub_mul, div_mul_cancel₀ _ (ne_of_gt hh)]
            linarith
          have hw2 : 0 < w - rowArea / h := by
            rw [hwrl]
            exact div_pos hremsum hh
          have hsum2 : (rem.map NItem.normalizedSize).sum = (w - rowArea / h) * h := by
            rw [hwrl, div_mul_cancel₀ _ (ne_of_gt hh)]
          obtain ⟨recMem, recPW⟩ := ih rem (x + rowArea / h) y (w - rowArea / h) h
            (Nat.lt_succ_iff.mp (Nat.lt_of_lt_of_le hlt hf)) hrempos hw2 hh hsum2
          constructor
          · intro r hr
            rcases List.mem_append.mp hr with hr | hr
            · obtain ⟨h1, h2, h3, h4, h5, h6⟩ := rowMem r hr
              rw [hExt] at h6
              refine ⟨by rw [h2]; exact hrl, h3, h4, le_of_eq h1.symm, ?_, h5, h6⟩
              rw [h1, h2]
              linarith
            · obtain ⟨h1, h2, h3, h4, h5, h6, h7⟩ := recMem r hr
              exact ⟨h1, h2, h3, by linarith, by linarith, h6, h7⟩
          · rw [List.pairwise_append]
            refine ⟨rowPW.imp (fun hle => stack_nonoverlap_y _ _ hle), recPW, ?_⟩
            intro r1 hr1 r2 hr2
            obtain ⟨e1, e2, -, -, -, -⟩ := rowMem r1 hr1
            obtain ⟨-, -, -, e4, -, -, -⟩ := recMem r2 hr2
            refine stack_nonoverlap_x r1 r2 ?_
            rw [e1, e2]
            exact e4
        · -- no remainder: the row is everything and rowLength = w
          rw [if_neg hremc, List.append_nil]
          have hrem0 : rem = [] := List.length_eq_zero.mp (Nat.eq_zero_of_not_pos hremc)
          rw [hrem0, List.append_nil] at hitems
          have hrowsum2 : (row.map NItem.normalizedSize).sum = w * h := by
            rw [← hitems]
            exact hsum
          have hrlw : rowArea / h = w := by
            rw [harea, hrowsum2, mul_div_cancel_right₀ _ (ne_of_gt hh)]
          constructor
          · intro r hr
            obtain ⟨h1, h2, h3, h4, h5, h6⟩ := rowMem r hr
            rw [hExt] at h6
            refine ⟨by rw [h2]; exact hrl, h3, h4, le_of_eq h1.symm, ?_, h5, h6⟩
            rw [h1, h2, hrlw]
          · exact rowPW.imp (fun hle => stack_nonoverlap_y _ _ hle)
      · -- horizontal split: side = w, the row occupies the band
        -- from y to y + rowLength, full width
        rcases hbr : buildRowS w (i0 :: i1 :: rest) [] 0 with ⟨row, rowArea, rem⟩
        have hgoal : layoutSquarifiedF 0 (f + 1) (i0 :: i1 :: rest) x y w h
            = layoutRowS 0 false x y (rowArea / w) row 0 ++
              (if 0 < rem.length then
                layoutSquarifiedF 0 f rem x (y + rowArea / w) w (h - rowArea / w)
              else []) := by
          rw [layoutSquarifiedF_cc_horiz 0 f i0 i1 rest x y w h hvert, hbr]
        rw [hgoal]
        obtain ⟨mid, hrow, hitems, harea⟩ := buildRowS_split w (i0 :: i1 :: rest) [] 0
        rw [hbr] at hrow hitems harea
        simp only [List.nil_append, zero_add] at hrow harea
        subst hrow
        have hlt : rem.length < (i0 :: i1 :: rest).length := by
          have := buildRowS_remaining_lt w i0 (i1 :: rest) 0
          rw [hbr] at this
          exact this
        have hrowne : row ≠ [] := by
          have := buildRowS_row_pos w i0 (i1 :: rest) 0
          rw [hbr] at this
          intro hcon
          rw [hcon] at this
          simp at this
        have hrowpos : ∀ j ∈ row, 0 < j.normalizedSize := by
          intro j hj
          exact hpos j (by rw [hitems]; exact List.mem_append_left _ hj)
        have hrempos : ∀ j ∈ rem, 0 < j.normalizedSize := by
          intro j hj
          exact hpos j (by rw [hitems]; exact List.mem_append_right _ hj)
        have hsplitsum : (row.map NItem.normalizedSize).sum
            + (rem.map NItem.normalizedSize).sum = w * h := by
          rw [← List.sum_append, ← List.map_append, ← hitems]
          exact hsum
        have hrowsum : 0 < (row.map NItem.normalizedSize).sum := by
          refine List.sum_pos _ ?_ ?_
          · intro a ha
            obtain ⟨j, hj, rfl⟩ := List.mem_map.mp ha
            exact hrowpos j hj
          · intro hcon
            exact hrowne (List.map_eq_nil_iff.mp hcon)
        have hrl : 0 < rowArea / w := div_pos (harea ▸ hrowsum) hw
        have hExt : (row.map NItem.normalizedSize).sum / (rowArea / w) = w := by
          rw [harea, div_div_eq_mul_div, mul_comm, mul_div_assoc,
            div_self (ne_of_gt hrowsum), mul_one]
        obtain ⟨rowMem, rowPW⟩ :=
          layoutRowS_zero_horiz x y (rowArea / w) hrl row 0 hrowpos
        simp only [add_zero, zero_add] at rowMem
        by_cases hremc : 0 < rem.length
        · rw [if_pos hremc]
          have hremne : rem ≠ [] := by
            intro hcon
            rw [hcon] at hremc
            simp at hremc
          have hremsum : 0 < (rem.map NItem.normalizedSize).sum := by
            refine List.sum_pos _ ?_ ?_
            · intro a ha
              obtain ⟨j, hj, rfl⟩ := List.mem_map.mp ha
              exact hrempos j hj
            · intro hcon
              exact hremne (List.map_eq_nil_iff.mp hcon)
          have hwrl : h - rowArea / w = (rem.map NItem.normalizedSize).sum / w := by
            rw [harea]
            rw [eq_div_iff (ne_of_gt hw), sub_mul, div_mul_cancel₀ _ (ne_of_gt hw)]
            nlinarith [hsplitsum]
          have hh2 : 0 < h - rowArea / w := by
            rw [hwrl]
            exact div_pos hremsum hw
          have hsum2 : (rem.map NItem.normalizedSize).sum = w * (h - rowArea / w) := by
            rw [hwrl, mul_comm, div_mul_cancel₀ _ (ne_of_gt hw)]
          obtain ⟨recMem, recPW⟩ := ih rem x (y + rowArea / w) w (h - rowArea / w)
            (Nat.lt_succ_iff.mp (Nat.lt_of_lt_of_le hlt hf)) hrempos hw hh2 hsum2
          constructor
          · intro r hr
            rcases List.mem_append.mp hr with hr | hr
            · obtain ⟨h1, h2, h3, h4, h5, h6⟩ := rowMem r hr
              rw [hExt] at h6
              refine ⟨h3, by rw [h2]; exact hrl, h4, h5, h6, le_of_eq h1.symm, ?_⟩
              rw [h1, h2]
              linarith
            · obtain ⟨h1, h2, h3, h4, h5, h6, h7⟩ := recMem r hr
              exact ⟨h1, h2, h3, h4, h5, by linarith, by linarith⟩
          · rw [List.pairwise_append]
            refine ⟨rowPW.imp (fun hle => stack_nonoverlap_x _ _ hle), recPW, ?_⟩
            intro r1 hr1 r2 hr2
            obtain ⟨e1, e2, -, -, -, -⟩ := rowMem r1 hr1
            obtain ⟨-, -, -, -, -, e4, -⟩ := recMem r2 hr2
            refine stack_nonoverlap_y r1 r2 ?_
            rw [e1, e2]
            exact e4
        · rw [if_neg hremc, List.append_nil]
          have hrem0 : rem = [] := List.length_eq_zero.mp (Nat.eq_zero_of_not_pos hremc)
          rw [hrem0, List.append_nil] at hitems
          have hrowsum2 : (row.map NItem.normalizedSize).sum = w * h := by
            rw [← hitems]
            exact hsum
          have hrlh : rowArea / w = h := by
            rw [harea, hrowsum2, mul_comm, mul_div_cancel_right₀ _ (ne_of_gt hw)]
          constructor
          · intro r hr
            obtain ⟨h1, h2, h3, h4, h5, h6⟩ := rowMem r hr
            rw [hExt] at h6
            refine ⟨h3, by rw [h2]; exact hrl, h4, h5, h6, le_of_eq h1.symm, ?_⟩
            rw [h1, h2, hrlh]
          · exact rowPW.imp (fun hle => stack_nonoverlap_x _ _ hle)

/-! ### The full pipeline: guards, normalization, sort, then partition -/

theorem calculateLayout_eq {α : Type} (items : List (Item α)) (W H p : ℚ)
    (hne : items ≠ []) (hts : totalSizeOf items ≠ 0) :
    calculateLayout items W H p
      = layoutSquarified p (normalizedItems items W H) 0 0 W H := by
  simp [calculateLayout, List.isEmpty_iff, hne, hts]

theorem totalSizeOf_pos {α : Type} (items : List (Item α))
    (hne : items ≠ []) (hsz : ∀ i ∈ items, 0 < i.size) : 0 < totalSizeOf items := by
  rw [totalSizeOf_eq_sum]
  refine List.sum_pos _ ?_ ?_
  · intro a ha
    obtain ⟨i, hi, rfl⟩ := List.mem_map.mp ha
    exact hsz i hi
  · intro hcon
    exact hne (List.map_eq_nil_iff.mp hcon)

theorem normalizedItems_perm {α : Type} (items : List (Item α)) (W H : ℚ) :
    List.Perm (normalizedItems items W H)
      (items.map fun i =>
        NItem.mk i.data i.size (i.size / totalSizeOf items * (W * H))) :=
  List.mergeSort_perm _ _

theorem normalizedItems_mem {α : Type} {items : List (Item α)} {W H : ℚ}
    {n : NItem α} (hn : n ∈ normalizedItems items W H) :
    ∃ i ∈ items,
      n = NItem.mk i.data i.size (i.size / totalSizeOf items * (W * H)) := by
  have hmem := (normalizedItems_perm items W H).mem_iff.mp hn
  obtain ⟨i, hi, heq⟩ := List.mem_map.mp hmem
  exact ⟨i, hi, heq.symm⟩

theorem normalizedItems_pos {α : Type} (items : List (Item α)) (W H : ℚ)
    (hsz : ∀ i ∈ items, 0 < i.size) (hT : 0 < totalSizeOf items)
    (hWH : 0 < W * H) :
    ∀ n ∈ normalizedItems items W H, 0 < n.normalizedSize := by
  intro n hn
  obtain ⟨i, hi, rfl⟩ := normalizedItems_mem hn
  exact mul_pos (div_pos (hsz i hi) hT) hWH

theorem normalizedItems_sum {α : Type} (items : List (Item α)) (W H : ℚ)
    (hts : totalSizeOf items ≠ 0) :
    ((normalizedItems items W H).map NItem.normalizedSize).sum = W * H := by
  have hperm := (normalizedItems_perm items W H).map NItem.normalizedSize
  rw [hperm.sum_eq, List.map_map]
  have hcong : items.map (NItem.normalizedSize ∘ fun i =>
        NItem.mk i.data i.size (i.size / totalSizeOf items * (W * H)))
      = items.map (fun i => Item.size i * (W * H / totalSizeOf items)) := by
    refine List.map_congr_left ?_
    intro a ha
    show a.size / totalSizeOf items * (W * H) = a.size * (W * H / totalSizeOf items)
    ring
  rw [hcong, List.sum_map_mul_right, ← totalSizeOf_eq_sum, mul_comm,
    div_mul_cancel₀ _ hts]

theorem normalizedItems_sorted {α : Type} (items : List (Item α)) (W H : ℚ) :
    (normalizedItems items W H).Pairwise
      (fun a b => b.normalizedSize ≤ a.normalizedSize) := by
  have hs := @List.sorted_mergeSort (NItem α)
    (fun a b : NItem α => decide (b.normalizedSize ≤ a.normalizedSize))
    (by
      intro a b c hab hbc
      simp only [decide_eq_true_eq] at hab hbc ⊢
      exact le_trans hbc hab)
    (by
      intro a b
      simpa [Bool.or_eq_true, decide_eq_true_eq] using
        le_total b.normalizedSize a.normalizedSize)
    (items.map fun i =>
      NItem.mk i.data i.size (i.size / totalSizeOf items * (W * H)))
  refine hs.imp ?_
  intro a b hab
  simpa [decide_eq_true_eq] using hab

/-- Bundle of facts about one full `calculateLayout` run on a valid input:
the result is the padding-zero run with every rectangle shrunk in place, and
the padding-zero rectangles have positive dimensions, area equal to the
normalized size, stay inside the container, never overlap, have normalized
sizes summing to the container area, and each carries some input item's data
with the normalized size prescribed by the normalization step. -/
theorem calculateLayout_run {α : Type} (items : List (Item α)) (W H p : ℚ)
    (hne : items ≠ []) (hsz : ∀ i ∈ items, 0 < i.size)
    (hW : 0 < W) (hH : 0 < H) (hp : 0 ≤ p) :
    ∃ L0 : List (Rect α),
      calculateLayout items W H p = L0.map (shrink p) ∧
      (∀ r ∈ L0,
        0 < r.width ∧ 0 < r.height ∧ r.width * r.height = r.normalizedSize ∧
        0 ≤ r.x ∧ r.x + r.width ≤ W ∧ 0 ≤ r.y ∧ r.y + r.height ≤ H) ∧
      L0.Pairwise (fun r1 r2 => ¬ overlaps r1 r2) ∧
      (L0.map Rect.normalizedSize).sum = W * H ∧
      (∀ r ∈ L0, ∃ i ∈ items, r.data = i.data ∧ r.size = i.size ∧
        r.normalizedSize = i.size / totalSizeOf items * (W * H)) := by
  have hT : 0 < totalSizeOf items := totalSizeOf_pos items hne hsz
  obtain ⟨hMem, hPW⟩ := layoutSquarifiedF_zero_main
    (normalizedItems items W H).length (normalizedItems items W H) 0 0 W H
    le_rfl
    (normalizedItems_pos items W H hsz hT (mul_pos hW hH))
    hW hH
    (normalizedItems_sum items W H (ne_of_gt hT))
  have hmap : (layoutSquarifiedF 0 (normalizedItems items W H).length
      (normalizedItems items W H) 0 0 W H).map toNItem = normalizedItems items W H :=
    layoutSquarifiedF_toNItem 0 _ _ 0 0 W H le_rfl
  refine ⟨layoutSquarifiedF 0 (normalizedItems items W H).length
      (normalizedItems items W H) 0 0 W H, ?_, ?_, hPW, ?_, ?_⟩
  · rw [calculateLayout_eq items W H p hne (ne_of_gt hT), layoutSquarified,
      layoutSquarifiedF_pad hp]
  · intro r hr
    obtain ⟨a1, a2, a3, a4, a5, a6, a7⟩ := hMem r hr
    exact ⟨a1, a2, a3, a4, by linarith, a6, by linarith⟩
  · have hmm : (layoutSquarifiedF 0 (normalizedItems items W H).length
        (normalizedItems items W H) 0 0 W H).map Rect.normalizedSize
        = ((layoutSquarifiedF 0 (normalizedItems items W H).length
            (normalizedItems items W H) 0 0 W H).map toNItem).map
          NItem.normalizedSize := by
      rw [List.map_map]
      rfl
    rw [hmm, hmap, normalizedItems_sum items W H (ne_of_gt hT)]
  · intro r hr
    have : toNItem r ∈ normalizedItems items W H := by
      rw [← hmap]
      exact List.mem_map_of_mem toNItem hr
    obtain ⟨i, hi, heq⟩ := normalizedItems_mem this
    simp only [toNItem, NItem.mk.injEq] at heq
    exact ⟨i, hi, heq.1, heq.2.1, heq.2.2⟩

/-- A positive-area intersection of the shrunken rectangles forces a
positive-area intersection of the originals (for non-negative padding). -/
theorem overlaps_shrink {p : ℚ} (hp : 0 ≤ p) {r1 r2 : Rect α}
    (hc : overlaps (shrink p r1) (shrink p r2)) : overlaps r1 r2 := by
  obtain ⟨hx, hy⟩ := hc
  have hw1 : 0 < max (r1.width - p) 0 := by
    have h1 := lt_of_le_of_lt (le_max_left _ _) hx
    have h2 := lt_of_lt_of_le h1 (min_le_left _ _)
    simp only [shrink] at h2
    linarith
  have hw2 : 0 < max (r2.width - p) 0 := by
    have h1 := lt_of_le_of_lt (le_max_right _ _) hx
    have h2 := lt_of_lt_of_le h1 (min_le_right _ _)
    simp only [shrink] at h2
    linarith
  have hh1 : 0 < max (r1.height - p) 0 := by
    have h1 := lt_of_le_of_lt (le_max_left _ _) hy
    have h2 := lt_of_lt_of_le h1 (min_le_left _ _)
    simp only [shrink] at h2
    linarith
  have hh2 : 0 < max (r2.height - p) 0 := by
    have h1 := lt_of_le_of_lt (le_max_right _ _) hy
    have h2 := lt_of_lt_of_le h1 (min_le_right _ _)
    simp only [shrink] at h2
    linarith
  have hw1p : 0 < r1.width - p := by
    rcases le_or_lt (r1.width - p) 0 with hc1 | hc1
    · rw [max_eq_right hc1] at hw1; exact absurd hw1 (lt_irrefl 0)
    · exact hc1
  have hw2p : 0 < r2.width - p := by
    rcases le_or_lt (r2.width - p) 0 with hc1 | hc1
    · rw [max_eq_right hc1] at hw2; exact absurd hw2 (lt_irrefl 0)
    · exact hc1
  have hh1p : 0 < r1.height - p := by
    rcases le_or_lt (r1.height - p) 0 with hc1 | hc1
    · rw [max_eq_right hc1] at hh1; exact absurd hh1 (lt_irrefl 0)
    · exact hc1
  have hh2p : 0 < r2.height - p := by
    rcases le_or_lt (r2.height - p) 0 with hc1 | hc1
    · rw [max_eq_right hc1] at hh2; exact absurd hh2 (lt_irrefl 0)
    · exact hc1
  simp only [shrink, max_eq_left hw1p.le, max_eq_left hw2p.le,
    max_eq_left hh1p.le, max_eq_left hh2p.le, max_lt_iff, lt_min_iff] at hx hy
  obtain ⟨⟨k1, k2⟩, k3, k4⟩ := hx
  obtain ⟨⟨m1, m2⟩, m3, m4⟩ := hy
  refine ⟨?_, ?_⟩
  · simp only [max_lt_iff, lt_min_iff]
    exact ⟨⟨by linarith, by linarith⟩, by linarith, by linarith⟩
  · simp only [max_lt_iff, lt_min_iff]
    exact ⟨⟨by linarith, by linarith⟩, by linarith, by linarith⟩

/-- Concrete run used by several witnesses: two equal items in a 200 × 100
container with padding 2. -/
theorem calculateLayout_eval_two :
    calculateLayout [Item.mk (0 : Nat) 1, Item.mk 1 1] 200 100 2 =
      [{ data := 0, size := 1, normalizedSize := 10000
         x := 1, y := 1, width := 98, height := 98 },
       { data := 1, size := 1, normalizedSize := 10000
         x := 101, y := 1, width := 98, height := 98 }] := by
  norm_num [calculateLayout, totalSizeOf, normalizedItems, layoutSquarified,
    layoutSquarifiedF, buildRowS, worstRatio, layoutRowS, max_def,
    List.mergeSort_of_sorted]

theorem sizes_pos_two : ∀ i ∈ [Item.mk (0 : Nat) 1, Item.mk 1 1], 0 < i.size := by
  intro i hi
  rcases List.mem_cons.mp hi with rfl | hi
  · norm_num
  · rcases List.mem_cons.mp hi with rfl | hi
    · norm_num
    · simp at hi

/-! ### Claim theorems: area conservation, proportionality, non-overlap,
item preservation, output order -/

/-- C1, counterexample to the claim as stated: with padding 3 in a 1 × 1
container (one item of size 1, all guards of the claim satisfied), the
emitted dimensions are clamped to 0 and the sum of
`(width + padding) * (height + padding)` is 9, not `1 * 1`. -/
theorem C1_area_conservation_cex :
    ¬ (((calculateLayout [Item.mk (0 : Nat) 1] 1 1 3).map
        (fun r => (r.width + 3) * (r.height + 3))).sum = 1 * 1) := by
  have hL : calculateLayout [Item.mk (0 : Nat) 1] 1 1 3 =
      [{ data := 0, size := 1, normalizedSize := 1
         x := 3/2, y := 3/2, width := 0, height := 0 }] := by
    norm_num [calculateLayout, totalSizeOf, normalizedItems, layoutSquarified,
      layoutSquarifiedF, max_def]
  rw [hL]
  norm_num

/-- C1 (amended): for a non-empty list of positive sizes, positive container
dimensions and non-negative padding, if no returned rectangle was fully
clamped away (all returned widths and heights are positive), then the sum of
the pre-padding areas `(width + padding) * (height + padding)` equals
`width * height` of the container, exactly. -/
theorem C1_area_conservation {α : Type} (items : List (Item α)) (W H p : ℚ)
    (hne : items ≠ []) (hsz : ∀ i ∈ items, 0 < i.size)
    (hW : 0 < W) (hH : 0 < H) (hp : 0 ≤ p)
    (hnc : ∀ r ∈ calculateLayout items W H p, 0 < r.width ∧ 0 < r.height) :
    ((calculateLayout items W H p).map
      (fun r => (r.width + p) * (r.height + p))).sum = W * H := by
  obtain ⟨L0, hEq, hFacts, -, hSum, -⟩ :=
    calculateLayout_run items W H p hne hsz hW hH hp
  rw [hEq, List.map_map]
  have hcong : L0.map ((fun r => (r.width + p) * (r.height + p)) ∘ shrink p)
      = L0.map Rect.normalizedSize := by
    refine List.map_congr_left ?_
    intro r hr
    obtain ⟨hw0, hh0, harea, -⟩ := hFacts r hr
    have hrmem : shrink p r ∈ calculateLayout items W H p := by
      rw [hEq]
      exact List.mem_map_of_mem _ hr
    obtain ⟨hww, hhh⟩ := hnc _ hrmem
    have hw1 : 0 < max (r.width - p) 0 := hww
    have hh1 : 0 < max (r.height - p) 0 := hhh
    have hw2 : 0 < r.width - p := by
      rcases le_or_lt (r.width - p) 0 with hc1 | hc1
      · rw [max_eq_right hc1] at hw1; exact absurd hw1 (lt_irrefl 0)
      · exact hc1
    have hh2 : 0 < r.height - p := by
      rcases le_or_lt (r.height - p) 0 with hc1 | hc1
      · rw [max_eq_right hc1] at hh1; exact absurd hh1 (lt_irrefl 0)
      · exact hc1
    show (max (r.width - p) 0 + p) * (max (r.height - p) 0 + p) = r.normalizedSize
    rw [max_eq_left hw2.le, max_eq_left hh2.le, ← harea]
    ring
  rw [hcong, hSum]

theorem C1_area_conservation_witness :
    ((calculateLayout [Item.mk (0 : Nat) 1, Item.mk 1 1] 200 100 2).map
      (fun r => (r.width + 2) * (r.height + 2))).sum = 200 * 100 := by
  refine C1_area_conservation [Item.mk (0 : Nat) 1, Item.mk 1 1] 200 100 2
    (by simp) sizes_pos_two (by norm_num) (by norm_num) (by norm_num) ?_
  intro r hr
  rw [calculateLayout_eval_two] at hr
  rcases List.mem_cons.mp hr with rfl | hr
  · exact ⟨by norm_num, by norm_num⟩
  · rcases List.mem_cons.mp hr with rfl | hr
    · exact ⟨by norm_num, by norm_num⟩
    · simp at hr

/-- C2, counterexample to the claim as stated: sizes 2 and 1 in a 3 × 1
container with padding 3/2 (all guards of the claim satisfied): the clamped
output rectangles give pre-padding areas 3 and 9/4, whose ratio 4/3 differs
from the weight ratio 2. -/
theorem C2_proportionality_cex :
    ¬ (∀ ra ∈ calculateLayout [Item.mk (0 : Nat) 2, Item.mk 1 1] 3 1 (3/2),
        ∀ rb ∈ calculateLayout [Item.mk (0 : Nat) 2, Item.mk 1 1] 3 1 (3/2),
          ((ra.width + 3/2) * (ra.height + 3/2))
              / ((rb.width + 3/2) * (rb.height + 3/2))
            = ra.size / rb.size) := by
  intro hAll
  have hL : calculateLayout [Item.mk (0 : Nat) 2, Item.mk 1 1] 3 1 (3/2) =
      [{ data := 0, size := 2, normalizedSize := 2
         x := 3/4, y := 3/4, width := 1/2, height := 0 },
       { data := 1, size := 1, normalizedSize := 1
         x := 11/4, y := 3/4, width := 0, height := 0 }] := by
    norm_num [calculateLayout, totalSizeOf, normalizedItems, layoutSquarified,
      layoutSquarifiedF, buildRowS, worstRatio, layoutRowS, max_def,
      List.mergeSort_of_sorted]
  have h := hAll
    { data := 0, size := 2, normalizedSize := 2
      x := 3/4, y := 3/4, width := 1/2, height := 0 }
    (by rw [hL]; simp)
    { data := 1, size := 1, normalizedSize := 1
      x := 11/4, y := 3/4, width := 0, height := 0 }
    (by rw [hL]; simp)
  norm_num at h

/-- C2 (amended): under the claim's guards plus non-negative padding and no
fully clamped rectangle, the ratio of the pre-padding areas of any two
returned rectangles equals the ratio of the corresponding weights,
exactly. -/
theorem C2_proportionality {α : Type} (items : List (Item α)) (W H p : ℚ)
    (hne : items ≠ []) (hsz : ∀ i ∈ items, 0 < i.size)
    (hW : 0 < W) (hH : 0 < H) (hp : 0 ≤ p)
    (hnc : ∀ r ∈ calculateLayout items W H p, 0 < r.width ∧ 0 < r.height) :
    ∀ ra ∈ calculateLayout items W H p, ∀ rb ∈ calculateLayout items W H p,
      ((ra.width + p) * (ra.height + p)) / ((rb.width + p) * (rb.height + p))
        = ra.size / rb.size := by
  obtain ⟨L0, hEq, hFacts, -, -, hSpec⟩ :=
    calculateLayout_run items W H p hne hsz hW hH hp
  have hT : 0 < totalSizeOf items := totalSizeOf_pos items hne hsz
  have hK : 0 < W * H / totalSizeOf items := div_pos (mul_pos hW hH) hT
  have key : ∀ r ∈ calculateLayout items W H p,
      (r.width + p) * (r.height + p)
        = r.size * (W * H / totalSizeOf items) := by
    intro r hr
    rw [hEq] at hr
    obtain ⟨r0, hr0, rfl⟩ := List.mem_map.mp hr
    obtain ⟨hw0, hh0, harea, -⟩ := hFacts r0 hr0
    obtain ⟨i, hi, hdata, hsize, hns⟩ := hSpec r0 hr0
    have hrmem : shrink p r0 ∈ calculateLayout items W H p := by
      rw [hEq]
      exact List.mem_map_of_mem _ hr0
    obtain ⟨hww, hhh⟩ := hnc _ hrmem
    have hw1 : 0 < max (r0.width - p) 0 := hww
    have hh1 : 0 < max (r0.height - p) 0 := hhh
    have hw2 : 0 < r0.width - p := by
      rcases le_or_lt (r0.width - p) 0 with hc1 | hc1
      · rw [max_eq_right hc1] at hw1; exact absurd hw1 (lt_irrefl 0)
      · exact hc1
    have hh2 : 0 < r0.height - p := by
      rcases le_or_lt (r0.height - p) 0 with hc1 | hc1
      · rw [max_eq_right hc1] at hh1; exact absurd hh1 (lt_irrefl 0)
      · exact hc1
    show (max (r0.width - p) 0 + p) * (max (r0.height - p) 0 + p)
      = r0.size * (W * H / totalSizeOf items)
    rw [max_eq_left hw2.le, max_eq_left hh2.le]
    have : (r0.width - p + p) * (r0.height - p + p) = r0.width * r0.height := by
      ring
    rw [this, harea, hns, hsize]
    ring
  have keysize : ∀ r ∈ calculateLayout items W H p, 0 < r.size := by
    intro r hr
    rw [hEq] at hr
    obtain ⟨r0, hr0, rfl⟩ := List.mem_map.mp hr
    obtain ⟨i, hi, -, hsize, -⟩ := hSpec r0 hr0
    show 0 < r0.size
    rw [hsize]
    exact hsz i hi
  intro ra hra rb hrb
  rw [key ra hra, key rb hrb, mul_div_mul_right _ _ (ne_of_gt hK)]

theorem C2_proportionality_witness :
    ((({ data := 0, size := 1, normalizedSize := 10000
         x := 1, y := 1, width := 98, height := 98 } : Rect Nat).width + 2)
        * (({ data := 0, size := 1, normalizedSize := 10000
              x := 1, y := 1, width := 98, height := 98 } : Rect Nat).height + 2))
      / ((({ data := 1, size := 1, normalizedSize := 10000
             x := 101, y := 1, width := 98, height := 98 } : Rect Nat).width + 2)
        * (({ data := 1, size := 1, normalizedSize := 10000
              x := 101, y := 1, width := 98, height := 98 } : Rect Nat).height + 2))
      = ({ data := 0, size := 1, normalizedSize := 10000
           x := 1, y := 1, width := 98, height := 98 } : Rect Nat).size
        / ({ data := 1, size := 1, normalizedSize := 10000
             x := 101, y := 1, width := 98, height := 98 } : Rect Nat).size := by
  refine C2_proportionality [Item.mk (0 : Nat) 1, Item.mk 1 1] 200 100 2
    (by simp) sizes_pos_two (by norm_num) (by norm_num) (by norm_num) ?_
    _ ?_ _ ?_
  · intro r hr
    rw [calculateLayout_eval_two] at hr
    rcases List.mem_cons.mp hr with rfl | hr
    · exact ⟨by norm_num, by norm_num⟩
    · rcases List.mem_cons.mp hr with rfl | hr
      · exact ⟨by norm_num, by norm_num⟩
      · simp at hr
  · rw [calculateLayout_eval_two]; simp
  · rw [calculateLayout_eval_two]; simp

/-- C3: with positive padding, positive sizes and positive container
dimensions, no two rectangles returned by the same call intersect with
positive area. -/
theorem C3_no_positive_overlap {α : Type} (items : List (Item α)) (W H p : ℚ)
    (hp : 0 < p) (hsz : ∀ i ∈ items, 0 < i.size) (hW : 0 < W) (hH : 0 < H) :
    (calculateLayout items W H p).Pairwise (fun r1 r2 => ¬ overlaps r1 r2) := by
  by_cases hne : items = []
  · subst hne
    simp [calculateLayout]
  · obtain ⟨L0, hEq, -, hPW, -, -⟩ :=
      calculateLayout_run items W H p hne hsz hW hH hp.le
    rw [hEq, List.pairwise_map]
    refine hPW.imp ?_
    intro r1 r2 hno hcon
    exact hno (overlaps_shrink hp.le hcon)

theorem C3_no_positive_overlap_witness :
    (calculateLayout [Item.mk (0 : Nat) 1, Item.mk 1 1] 200 100 2).Pairwise
      (fun r1 r2 => ¬ overlaps r1 r2) :=
  C3_no_positive_overlap [Item.mk (0 : Nat) 1, Item.mk 1 1] 200 100 2
    (by norm_num) sizes_pos_two (by norm_num) (by norm_num)

/-- C9: for positive sizes and container dimensions, the output has exactly
one rectangle per input item — the multiset of carried (metadata, size)
pairs is a permutation of the input items — and each rectangle carries its
item's data unmodified next to the computed geometry. -/
theorem C9_items_preserved {α : Type} (items : List (Item α)) (W H p : ℚ)
    (hsz : ∀ i ∈ items, 0 < i.size) (_hW : 0 < W) (_hH : 0 < H) :
    List.Perm
      ((calculateLayout items W H p).map fun r => Item.mk r.data r.size)
      items := by
  by_cases hne : items = []
  · subst hne
    simp [calculateLayout]
  · have hT : 0 < totalSizeOf items := totalSizeOf_pos items hne hsz
    rw [calculateLayout_eq items W H p hne (ne_of_gt hT), layoutSquarified]
    have hmap := layoutSquarifiedF_toNItem p
      (normalizedItems items W H).length (normalizedItems items W H) 0 0 W H le_rfl
    have hcomp : (layoutSquarifiedF p (normalizedItems items W H).length
          (normalizedItems items W H) 0 0 W H).map (fun r => Item.mk r.data r.size)
        = ((layoutSquarifiedF p (normalizedItems items W H).length
            (normalizedItems items W H) 0 0 W H).map toNItem).map
          (fun n => Item.mk n.data n.size) := by
      rw [List.map_map]
      rfl
    rw [hcomp, hmap]
    have hperm := (normalizedItems_perm items W H).map
      (fun n : NItem α => Item.mk n.data n.size)
    have hid : (items.map fun i =>
          NItem.mk i.data i.size (i.size / totalSizeOf items * (W * H))).map
        (fun n => Item.mk n.data n.size) = items := by
      rw [List.map_map]
      have he : ∀ i ∈ items,
          ((fun n : NItem α => Item.mk n.data n.size) ∘ fun i =>
            NItem.mk i.data i.size (i.size / totalSizeOf items * (W * H))) i
          = id i := fun i _ => rfl
      rw [List.map_congr_left he, List.map_id]
    rw [hid] at hperm
    exact hperm

theorem C9_items_preserved_witness :
    List.Perm
      ((calculateLayout [Item.mk (0 : Nat) 1, Item.mk 1 1] 200 100 2).map
        fun r => Item.mk r.data r.size)
      [Item.mk (0 : Nat) 1, Item.mk 1 1] :=
  C9_items_preserved [Item.mk (0 : Nat) 1, Item.mk 1 1] 200 100 2
    sizes_pos_two (by norm_num) (by norm_num)

/-- C10, counterexample to the claim as stated: with a negative container
height (no guard in the claim restricts the dimensions), the normalized
sizes are negative, descending order of normalized size is ascending order
of weight, and the output is sorted by increasing size. -/
theorem C10_sorted_by_size_cex :
    ¬ (calculateLayout [Item.mk (0 : Nat) 1, Item.mk 1 2] 1 (-1) 0).Pairwise
      (fun r1 r2 => r2.size ≤ r1.size) := by
  have hL : calculateLayout [Item.mk (0 : Nat) 1, Item.mk 1 2] 1 (-1) 0 =
      [{ data := 0, size := 1, normalizedSize := -(1/3)
         x := 0, y := 0, width := 1, height := 0 },
       { data := 1, size := 2, normalizedSize := -(2/3)
         x := 0, y := -(1/3), width := 1, height := 0 }] := by
    norm_num [calculateLayout, totalSizeOf, normalizedItems, layoutSquarified,
      layoutSquarifiedF, buildRowS, worstRatio, layoutRowS, max_def,
      List.mergeSort_of_sorted]
  rw [hL]
  intro hcon
  have := List.rel_of_pairwise_cons hcon (List.mem_singleton.mpr rfl)
  norm_num at this

/-- C10 (amended): for positive sizes and positive container dimensions, the
returned sequence is sorted in non-increasing order of item size: whenever
one rectangle precedes another, the first size is at least the second. -/
theorem C10_sorted_by_size {α : Type} (items : List (Item α)) (W H p : ℚ)
    (hsz : ∀ i ∈ items, 0 < i.size) (hW : 0 < W) (hH : 0 < H) :
    (calculateLayout items W H p).Pairwise (fun r1 r2 => r2.size ≤ r1.size) := by
  by_cases hne : items = []
  · subst hne
    simp [calculateLayout]
  · have hT : 0 < totalSizeOf items := totalSizeOf_pos items hne hsz
    have hK : 0 < W * H / totalSizeOf items := div_pos (mul_pos hW hH) hT
    rw [calculateLayout_eq items W H p hne (ne_of_gt hT), layoutSquarified]
    have hmap := layoutSquarifiedF_toNItem p
      (normalizedItems items W H).length (normalizedItems items W H) 0 0 W H le_rfl
    have hsorted := normalizedItems_sorted items W H
    rw [← hmap, List.pairwise_map] at hsorted
    have hspec : ∀ r ∈ layoutSquarifiedF p (normalizedItems items W H).length
        (normalizedItems items W H) 0 0 W H,
        r.normalizedSize = r.size * (W * H / totalSizeOf items) := by
      intro r hr
      have : toNItem r ∈ normalizedItems items W H := by
        rw [← hmap]
        exact List.mem_map_of_mem toNItem hr
      obtain ⟨i, hi, heq⟩ := normalizedItems_mem this
      simp only [toNItem, NItem.mk.injEq] at heq
      rw [heq.2.2, heq.2.1]
      ring
    refine hsorted.imp_of_mem ?_
    intro a b ha hb hab
    have hna := hspec a ha
    have hnb := hspec b hb
    have : b.size * (W * H / totalSizeOf items)
        ≤ a.size * (W * H / totalSizeOf items) := by
      rw [← hna, ← hnb]
      exact hab
    exact le_of_mul_le_mul_right this hK

theorem C10_sorted_by_size_witness :
    (calculateLayout [Item.mk (0 : Nat) 1, Item.mk 1 1] 200 100 2).Pairwise
      (fun r1 r2 => r2.size ≤ r1.size) :=
  C10_sorted_by_size [Item.mk (0 : Nat) 1, Item.mk 1 1] 200 100 2
    sizes_pos_two (by norm_num) (by norm_num)

end Treemap
